import Mathlib

/-!
Verification of the timetrackcli activity store against its specification.

This file is a shallow embedding of the engine core of `timetrackcli.go`:
the time-bucketed activity store (raw samples `Bins`, compacted `Ranges`,
`Config`), the bucket clock (`floorToBin`), the compactor (`compactBins`),
the window resolver (`fetchBins` and the grid/default-fill pattern shared by
`todayTotals` / `buildTimelineBlocks` / `reportToday` / `calculateFocusStats`),
the focus statistics scan, goal formatting (`formatPercentage`,
`humanDuration`) and the configuration parsers (`parseTimeToMinutes`,
`parseWorkDays`) together with the `--config` command's commit-or-reject step.

Modelling conventions:
* Instants are `Int` unix seconds.  The Go code computes bucket floors on
  civil time in the local timezone; we model the UTC frame, where the
  5-minute bucket grid is the multiples of 300 seconds and Go's civil-time
  floor is integer floor to a multiple of 300 (Lean's `Int` `/` and `%` are
  Euclidean, which is floor for the positive divisor 300).
* Go `map[string]int` bins (keys are decimal unix seconds) are modelled as an
  association list `List (Int × Int)`; `List.lookup` is the map read (Go map
  keys are unique, and all keys written by the program are canonical decimal
  integers, so string keys and integer keys are in bijection).
* Go statuses are `int` (0 = idle, 1 = working); we keep `Int`.
* Fallible parsing is modelled with `Option`.
-/

namespace TimeTrack

/-- The `binMinutes` constant from the source: 5-minute buckets. -/
def binMinutes : Int := 5

/-- One bucket width in seconds (`binMinutes * time.Minute` in the source). -/
def binSeconds : Int := binMinutes * 60

/-- The `Config` struct: daily goal in minutes and workday ordinals (1=Mon..7=Sun). -/
structure Config where
  dailyGoalMinutes : Int
  workDays : List Int
deriving DecidableEq

/-- The `Range` struct: half-open `[start, end)` interval with one status plus
optional tag and note.  `end` is a Lean keyword, hence the field name `end_`. -/
structure Range where
  start : Int
  end_ : Int
  status : Int
  tag : String
  note : String
deriving DecidableEq

/-- The `Store` struct: raw samples, compacted ranges, configuration, tag catalogue. -/
structure Store where
  bins : List (Int × Int)
  ranges : List Range
  config : Config
  tags : List String
deriving DecidableEq

/-- The bucket clock `floorToBin`: start of the bucket containing `t`.  The source truncates to
the minute and rounds the minute down to a multiple of `binMinutes` in civil
time; in the UTC frame this is floor to a multiple of 300 seconds. -/
def floorToBin (t : Int) : Int := t - t % 300

/-- Map-write `s.Bins[k] = v` on the association-list model: replace the
binding if the key is present, otherwise add it. -/
def setBin : List (Int × Int) → Int → Int → List (Int × Int)
  | [], k, v => [(k, v)]
  | (k', v') :: rest, k, v =>
    if k' = k then (k, v) :: rest else (k', v') :: setBin rest k v

/-- The `upsertBin` function (timetrackcli.go:805-815): sticky-promotion write of one
observation into the raw-sample map.  `cur := s.Bins[k]` reads 0 for a missing
key, exactly as the Go zero value does. -/
def upsertBin (s : Store) (binStart : Int) (working : Bool) : Store :=
  let cur := (s.bins.lookup binStart).getD 0
  if working = true ∧ cur = 0 then
    { s with bins := setBin s.bins binStart 1 }
  else if cur = 0 ∧ working = false then
    if (s.bins.lookup binStart).isSome then s
    else { s with bins := setBin s.bins binStart 0 }
  else s

/-- The raw-sample half of `fetchBins` (timetrackcli.go:820-829): a bin at
instant `t` contributes iff `start <= t < end`. -/
def rawStatus (qs qe : Int) (bins : List (Int × Int)) (t : Int) : Option Int :=
  if qs ≤ t ∧ t < qe then bins.lookup t else none

/-- The decompression loop of `fetchBins` (timetrackcli.go:831-844) writes
range `r` onto bucket `t` iff: the range is not skipped by the outer filter
(`rEnd.Before(start) || !rStart.Before(end)`), the loop variable
`cur := floorToBin(rStart); cur += 300` reaches `t`
(`floorToBin r.start ≤ t` and `t` on the 300-grid of `floorToBin r.start`)
before the loop stops (`t < r.end_ ∧ t < qe`), and the body guard
`!cur.Before(start)` holds (`qs ≤ t`). -/
def rangeAssigns (qs qe : Int) (r : Range) (t : Int) : Prop :=
  qs ≤ r.end_ ∧ r.start < qe ∧
  floorToBin r.start ≤ t ∧ (t - floorToBin r.start) % 300 = 0 ∧
  t < r.end_ ∧ t < qe ∧ qs ≤ t

instance (qs qe : Int) (r : Range) (t : Int) : Decidable (rangeAssigns qs qe r t) := by
  unfold rangeAssigns; infer_instance

/-- Value written for bucket `t` by the range loop of `fetchBins`
(timetrackcli.go:831-844).  Ranges are applied in slice order and each write
overwrites the previous one, so the last assigning range of the list wins:
we first consult the tail of the list. -/
def rangesStatus (qs qe : Int) (rs : List Range) (t : Int) : Option Int :=
  match rs with
  | [] => none
  | r :: rest =>
    match rangesStatus qs qe rest t with
    | some v => some v
    | none => if rangeAssigns qs qe r t then some r.status else none

/-- The `fetchBins` function (timetrackcli.go:817-847) as a per-bucket resolver: raw bins
are inserted into `res` first, then the range loop overwrites, so a bucket
assigned by some range ends with the range value and only otherwise keeps the
raw value. -/
def fetchBins (s : Store) (qs qe : Int) (t : Int) : Option Int :=
  match rangesStatus qs qe s.ranges t with
  | some v => some v
  | none => rawStatus qs qe s.bins t

/-- Inner loop of `compactBins` (timetrackcli.go:156-164): starting from run
head status `st` and previous instant `prev`, consume instants while the next
one has the same status and is exactly one bucket width later.  Returns the
last instant of the run and the unconsumed remainder. -/
def takeRun (bins : List (Int × Int)) (st : Int) : Int → List Int → Int × List Int
  | prev, [] => (prev, [])
  | prev, t :: rest =>
    if (bins.lookup t).getD 0 = st ∧ t - prev = 300 then
      takeRun bins st t rest
    else (prev, t :: rest)

theorem takeRun_len (bins : List (Int × Int)) (st : Int) :
    ∀ (prev : Int) (l : List Int), (takeRun bins st prev l).2.length ≤ l.length := by
  intro prev l
  induction l generalizing prev with
  | nil => simp [takeRun]
  | cons t rest ih =>
    by_cases h : (bins.lookup t).getD 0 = st ∧ t - prev = 300
    · simpa [takeRun, h] using Nat.le_succ_of_le (ih t)
    · simp [takeRun, h]

/-- Fuelled version of the outer loop of `compactBins` (timetrackcli.go:151-174).
The fuel only serves to make the recursion structural (hence kernel-reducible);
`takeRun_len` shows fuel `l.length` never runs out. -/
def groupRunsF (bins : List (Int × Int)) : Nat → List Int → List Range
  | 0, _ => []
  | _, [] => []
  | fuel + 1, t :: rest =>
    let st := (bins.lookup t).getD 0
    let p := takeRun bins st t rest
    ⟨t, p.1 + 300, st, "", ""⟩ :: groupRunsF bins fuel p.2

/-- Outer loop of `compactBins` (timetrackcli.go:151-174): emit one `Range`
per maximal run of consecutive same-status instants; `start` is the run head,
`end` is the last instant plus one bucket width, the status is the head's
status, tag and note are the Go zero values. -/
def groupRuns (bins : List (Int × Int)) (l : List Int) : List Range :=
  groupRunsF bins l.length l

theorem groupRunsF_fuel (bins : List (Int × Int)) :
    ∀ (f₁ f₂ : Nat) (l : List Int), l.length ≤ f₁ → l.length ≤ f₂ →
      groupRunsF bins f₁ l = groupRunsF bins f₂ l := by
  intro f₁
  induction f₁ with
  | zero =>
    intro f₂ l h₁ _
    cases l with
    | nil => cases f₂ <;> rfl
    | cons t rest => simp at h₁
  | succ f ih =>
    intro f₂ l h₁ h₂
    cases l with
    | nil => cases f₂ <;> rfl
    | cons t rest =>
      cases f₂ with
      | zero => simp at h₂
      | succ f' =>
        simp only [groupRunsF]
        refine congrArg _ (ih f' _ ?_ ?_)
        · exact le_trans (takeRun_len bins _ t rest) (Nat.lt_succ_iff.mp h₁)
        · exact le_trans (takeRun_len bins _ t rest) (Nat.lt_succ_iff.mp h₂)

theorem groupRuns_nil (bins : List (Int × Int)) : groupRuns bins [] = [] := rfl

theorem groupRuns_cons (bins : List (Int × Int)) (t : Int) (rest : List Int) :
    groupRuns bins (t :: rest) =
      ⟨t, (takeRun bins ((bins.lookup t).getD 0) t rest).1 + 300,
        (bins.lookup t).getD 0, "", ""⟩ ::
        groupRuns bins (takeRun bins ((bins.lookup t).getD 0) t rest).2 := by
  simp only [groupRuns, List.length_cons, groupRunsF]
  exact congrArg _ (groupRunsF_fuel bins _ _ _ (takeRun_len bins _ t rest) le_rfl)

/-- The `compactBins` function (timetrackcli.go:127-177): no-op below 50 raw samples;
otherwise sort the sampled instants ascending, append one range per maximal
consecutive same-status run, and clear the raw samples.  The Go code sorts
with an in-place quadratic exchange sort; since sorted permutations of a list
of integers coincide, `List.insertionSort` produces the identical list. -/
def compactBins (s : Store) : Store :=
  if s.bins.length < 50 then s
  else
    let times := List.insertionSort (· ≤ ·) (s.bins.map Prod.fst)
    if times.isEmpty then s
    else
      { s with ranges := s.ranges ++ groupRuns s.bins times, bins := [] }

/-- Compaction trigger in the sampling loop (timetrackcli.go:1661):
`if len(store.Bins) > 100 { compactBins(store) ... }`. -/
def mainLoopCompacts (s : Store) : Bool := decide (100 < s.bins.length)

/-- Bucket grid built by the resolver loops (timetrackcli.go:245-248, 855-858,
1072-1075, 1316-1319): `for cur := floorToBin(start); cur.Before(floorToBin(end));
cur = cur.Add(binMinutes * time.Minute)`.  The loop runs once per whole bucket
between the two floors. -/
def binGrid (qs qe : Int) : List Int :=
  (List.range (((floorToBin qe - floorToBin qs) / 300).toNat)).map
    (fun k : Nat => floorToBin qs + 300 * (k : Int))

/-- Default-fill-then-overlay step shared by `todayTotals`,
`buildTimelineBlocks`, `reportToday` and `calculateFocusStats`: every grid
bucket starts as idle (0) and buckets present in the `fetchBins` result are
overwritten with the fetched status. -/
def resolvedStatus (s : Store) (qs qe : Int) (t : Int) : Int :=
  (fetchBins s qs qe t).getD 0

/-- Loop state of `calculateFocusStats` (timetrackcli.go:1333-1355):
`longest`/`current` focus minutes, previous status, switch count, folded over
the remaining resolved statuses. -/
def focusGo (bins : List Int) : Nat → Nat → Int → Nat → Nat × Nat :=
  fun longest current prev switches =>
    match bins with
    | [] => (longest, switches)
    | c :: rest =>
      let current' := if c = 1 then current + 5 else 0
      let longest' := if c = 1 ∧ longest < current' then current' else longest
      let switches' := if c ≠ prev then switches + 1 else switches
      focusGo rest longest' current' c switches'

/-- Scan of `calculateFocusStats` (timetrackcli.go:1329-1357) over a resolved
status sequence: returns `(longestFocus, contextSwitches)`; an empty sequence
returns `(0, 0)` and otherwise `prevStatus` starts at the first status. -/
def focusScan (statuses : List Int) : Nat × Nat :=
  match statuses with
  | [] => (0, 0)
  | s0 :: _ => focusGo statuses 0 0 s0 0

/-- The `calculateFocusStats` function (timetrackcli.go:1310-1358).  The Go
function resolves the window from local midnight to `time.Now()`; the civil
midnight computation is outside the integer model, so the window bounds are
parameters here. -/
def calculateFocusStats (s : Store) (dayStart now : Int) : Nat × Nat :=
  focusScan ((binGrid dayStart now).map (resolvedStatus s dayStart now))

/-- The `humanDuration` function (timetrackcli.go:753-769). -/
def humanDuration (mins : Int) : String :=
  let h := mins / 60
  let m := mins % 60
  if 0 < h ∧ 0 < m then toString h ++ " hr " ++ toString m ++ " mins"
  else if 0 < h then
    if h = 1 then "1 hr" else toString h ++ " hrs"
  else if m = 1 then "1 min"
  else toString m ++ " mins"

/-- The `formatPercentage` function (timetrackcli.go:1203-1209). -/
def formatPercentage (workMins goalMins : Int) : String :=
  if goalMins = 0 then "0%"
  else toString (workMins * 100 / goalMins) ++ "% of " ++ humanDuration goalMins

/-- Split of a character list on a separator character; models Go
`strings.Split` for the one-character separators ":", "-", "," used by the
configuration parsers (an empty input yields one empty field, exactly as in Go). -/
def splitOnChar (sep : Char) : List Char → List (List Char)
  | [] => [[]]
  | c :: rest =>
    match splitOnChar sep rest with
    | [] => [[c]]
    | h :: tl => if c = sep then [] :: h :: tl else (c :: h) :: tl

/-- ASCII model of Go `strings.ToLower`, applied characterwise (all day-name
tokens compared by `parseWorkDays` are ASCII). -/
def lowerChar (c : Char) : Char :=
  if 'A' ≤ c ∧ c ≤ 'Z' then Char.ofNat (c.toNat + 32) else c

/-- Characterwise lowering of a token. -/
def lowerStr (l : List Char) : List Char := l.map lowerChar

/-- Model of Go `strings.TrimSpace`: drop whitespace from both ends. -/
def trimSpace (l : List Char) : List Char :=
  (((l.dropWhile Char.isWhitespace).reverse).dropWhile Char.isWhitespace).reverse

/-- Decimal digit run parser: `some` of the value iff the list is nonempty and
all digits. -/
def parseDigits : List Char → Option Nat
  | [] => none
  | [c] => if c.isDigit then some (c.toNat - '0'.toNat) else none
  | c :: rest =>
    if c.isDigit then
      (parseDigits rest).map (fun n => (c.toNat - '0'.toNat) * 10 ^ rest.length + n)
    else none

/-- Model of Go `strconv.Atoi`: optional single leading sign, then a nonempty
run of decimal digits (machine-word overflow is not modelled; none of the
verified claims involves inputs near the 64-bit boundary). -/
def atoi (l : List Char) : Option Int :=
  match l with
  | [] => none
  | c :: rest =>
    if c = '-' then (parseDigits rest).map (fun n => -(n : Int))
    else if c = '+' then (parseDigits rest).map (fun n => (n : Int))
    else (parseDigits l).map (fun n => (n : Int))

/-- The `parseTimeToMinutes` function (timetrackcli.go:1155-1169): split on
":", demand exactly two integer parts, return `hours*60 + mins`. -/
def parseTimeToMinutes (timeStr : String) : Option Int :=
  match splitOnChar ':' timeStr.data with
  | [p0, p1] =>
    match atoi p0, atoi p1 with
    | some hours, some mins => some (hours * 60 + mins)
    | _, _ => none
  | _ => none

/-- Day-name table of `parseWorkDays` (timetrackcli.go:1172-1174). -/
def dayMap : List (List Char × Int) :=
  [("mon".data, 1), ("tue".data, 2), ("wed".data, 3), ("thu".data, 4),
   ("fri".data, 5), ("sat".data, 6), ("sun".data, 7)]

/-- Lookup of a (lowercased) token in the day-name table. -/
def dayLookup (tk : List Char) : Option Int := dayMap.lookup tk

/-- Loop `for i := start; i <= end; i++` of `parseWorkDays`: ascending day
ordinals from `a` to `b`, empty when `a > b`. -/
def rangeDays (a b : Int) : List Int :=
  (List.range (b - a + 1).toNat).map (fun k => a + (k : Int))

/-- Comma branch of `parseWorkDays` (timetrackcli.go:1190-1199): look up each
trimmed, lowercased token, failing on the first unknown one and otherwise
appending the ordinals in input order. -/
def parseDayTokens : List (List Char) → Option (List Int)
  | [] => some []
  | p :: rest =>
    match dayLookup (lowerStr (trimSpace p)) with
    | none => none
    | some d => (parseDayTokens rest).map (fun ds => d :: ds)

/-- Range branch of `parseWorkDays` (timetrackcli.go:1178-1189): both
endpoints must name days, and the result is the ascending ordinal range. -/
def dayRangeOf (p0 p1 : List Char) : Option (List Int) :=
  match dayLookup (lowerStr p0), dayLookup (lowerStr p1) with
  | some a, some b => some (rangeDays a b)
  | _, _ => none

/-- The `parseWorkDays` function (timetrackcli.go:1171-1201): a string
containing "-" is a two-endpoint range (empty when the first ordinal exceeds
the second); otherwise a comma-separated token list where any unknown token is
an error. -/
def parseWorkDays (workDaysStr : String) : Option (List Int) :=
  if workDaysStr.data.contains '-' then
    match splitOnChar '-' workDaysStr.data with
    | [p0, p1] => dayRangeOf p0 p1
    | _ => none
  else
    parseDayTokens (splitOnChar ',' workDaysStr.data)

/-- Configuration branch of `main` (timetrackcli.go:1582-1600): parse the
value for the given key and return the mutated store, or `none` when the
parser fails (`os.Exit(1)` before any store mutation) or the key is unknown. -/
def applyConfig (s : Store) (key value : String) : Option Store :=
  if key = "dailygoal" then
    (parseTimeToMinutes value).map
      (fun m => { s with config := { s.config with dailyGoalMinutes := m } })
  else if key = "workdays" then
    (parseWorkDays value).map
      (fun ds => { s with config := { s.config with workDays := ds } })
  else none

/-- End-to-end effect of `--config key=value` on the persisted store
(timetrackcli.go:1569-1608): on success the mutated store is saved, on any
parse error the process exits before `saveStore`, so the previously saved
store remains in effect. -/
def configCommand (saved : Store) (key value : String) : Store :=
  match applyConfig saved key value with
  | some s' => s'
  | none => saved

-- Sanity checks of the embedding on concrete data (bucket width 300 s).
example : floorToBin 601 = 600 := by decide
example : floorToBin (-1) = -300 := by decide
example :
    fetchBins ⟨[(600, 1)], [], ⟨480, [1, 2, 3, 4, 5]⟩, []⟩ 0 1500 600 = some 1 := by decide
example :
    fetchBins ⟨[(0, 1)], [⟨0, 300, 0, "", ""⟩], ⟨480, [1, 2, 3, 4, 5]⟩, []⟩ 0 300 0
      = some 0 := by decide
example :
    groupRuns [(0, 1), (300, 1), (900, 1)] [0, 300, 900]
      = [⟨0, 600, 1, "", ""⟩, ⟨900, 1200, 1, "", ""⟩] := by decide

/-- Default configuration installed by `loadStore` for a missing or partial
document (timetrackcli.go:698-722): 480 goal minutes, workdays Mon-Fri. -/
def defaultConfig : Config := ⟨480, [1, 2, 3, 4, 5]⟩

theorem lookup_setBin_self (b : List (Int × Int)) (k v : Int) :
    (setBin b k v).lookup k = some v := by
  induction b with
  | nil => simp [setBin, List.lookup]
  | cons p rest ih =>
    obtain ⟨k', v'⟩ := p
    by_cases h : k' = k
    · simp [setBin, h, List.lookup]
    · have hbeq : (k == k') = false := by simp [Ne.symm h]
      simp [setBin, h, List.lookup, hbeq, ih]

theorem upsertBin_none_true {s : Store} {b : Int} (h : s.bins.lookup b = none) :
    (upsertBin s b true).bins.lookup b = some 1 := by
  unfold upsertBin
  rw [h]
  simp [lookup_setBin_self]

theorem upsertBin_none_false {s : Store} {b : Int} (h : s.bins.lookup b = none) :
    (upsertBin s b false).bins.lookup b = some 0 := by
  unfold upsertBin
  rw [h]
  simp [lookup_setBin_self]

theorem upsertBin_zero_true {s : Store} {b : Int} (h : s.bins.lookup b = some 0) :
    (upsertBin s b true).bins.lookup b = some 1 := by
  unfold upsertBin
  rw [h]
  simp [lookup_setBin_self]

theorem upsertBin_zero_false {s : Store} {b : Int} (h : s.bins.lookup b = some 0) :
    upsertBin s b false = s := by
  unfold upsertBin
  rw [h]
  simp

theorem upsertBin_nonzero {s : Store} {b : Int} {v : Int}
    (h : s.bins.lookup b = some v) (hv : v ≠ 0) (w : Bool) : upsertBin s b w = s := by
  unfold upsertBin
  rw [h]
  simp [hv]

theorem upsertBin_foldl_one {s : Store} {b : Int} (h : s.bins.lookup b = some 1)
    (ws : List Bool) : ws.foldl (fun st w => upsertBin st b w) s = s := by
  induction ws with
  | nil => rfl
  | cons w ws ih =>
    simp only [List.foldl_cons, upsertBin_nonzero h one_ne_zero w, ih]

/-- C3 (confirmed): sticky promotion of `upsertBin` — idle-then-working and
working-then-idle both leave a bucket `working`; a bucket whose sample is
`working` is never demoted by any later sequence of upserts to it; an upsert
on a bucket with no sample creates status 1 for `working` and 0 for `idle`.
The hypothesis restricts the pre-existing sample of that bucket to the two
status values the program writes. -/
theorem upsertBin_sticky (s : Store) (b : Int)
    (hv : ∀ v, s.bins.lookup b = some v → v = 0 ∨ v = 1) :
    ((upsertBin (upsertBin s b false) b true).bins.lookup b = some 1) ∧
    ((upsertBin (upsertBin s b true) b false).bins.lookup b = some 1) ∧
    (s.bins.lookup b = some 1 →
      ∀ ws : List Bool,
        (ws.foldl (fun st w => upsertBin st b w) s).bins.lookup b = some 1) ∧
    (s.bins.lookup b = none →
      ∀ w, (upsertBin s b w).bins.lookup b = some (if w then 1 else 0)) := by
  refine ⟨?_, ?_, ?_, ?_⟩
  · rcases hl : s.bins.lookup b with _ | v
    · have h0 := upsertBin_none_false hl
      exact upsertBin_zero_true h0
    · rcases hv v hl with rfl | rfl
      · rw [upsertBin_zero_false hl]
        exact upsertBin_zero_true hl
      · rw [upsertBin_nonzero hl one_ne_zero false, upsertBin_nonzero hl one_ne_zero true]
        exact hl
  · rcases hl : s.bins.lookup b with _ | v
    · have h1 := upsertBin_none_true hl
      rw [upsertBin_nonzero h1 one_ne_zero false]
      exact h1
    · rcases hv v hl with rfl | rfl
      · have h1 := upsertBin_zero_true hl
        rw [upsertBin_nonzero h1 one_ne_zero false]
        exact h1
      · rw [upsertBin_nonzero hl one_ne_zero true, upsertBin_nonzero hl one_ne_zero false]
        exact hl
  · intro h1 ws
    rw [upsertBin_foldl_one h1 ws]
    exact h1
  · intro hl w
    cases w
    · exact upsertBin_none_false hl
    · exact upsertBin_none_true hl

/-- Store used to exercise the sticky-promotion claim at a concrete input. -/
def c3Store : Store := ⟨[], [], defaultConfig, []⟩

/-- Witness for C3 at a concrete store with no sample for bucket 0. -/
theorem upsertBin_sticky_witness :
    (upsertBin (upsertBin c3Store 0 false) 0 true).bins.lookup 0 = some 1 :=
  (upsertBin_sticky c3Store 0 (fun v h => by simp [c3Store, List.lookup] at h)).1

/-- Store with a raw sample (status working) and an overlapping range (status
idle) on the very same bucket. -/
def c1Store : Store := ⟨[(0, 1)], [⟨0, 300, 0, "", ""⟩], defaultConfig, []⟩

/-- C1 (counterexample): on a bucket where both a raw sample (working) and a
range (idle) assign a status, `fetchBins` resolves to the range's status, not
the raw sample's — the range loop runs after the raw loop and overwrites. -/
theorem fetchBins_raw_loses :
    rawStatus 0 300 c1Store.bins 0 = some 1 ∧
    rangesStatus 0 300 c1Store.ranges 0 = some 0 ∧
    fetchBins c1Store 0 300 0 = some 0 := by decide

/-- C1 (amended): whenever both a raw sample and a decompressed range assign a
status to the same bucket, the `fetchBins` result is the range-derived status
(ranges are overlaid after raw samples and win). -/
theorem fetchBins_range_wins (s : Store) (qs qe t v w : Int)
    (_hraw : rawStatus qs qe s.bins t = some v)
    (hrange : rangesStatus qs qe s.ranges t = some w) :
    fetchBins s qs qe t = some w := by
  unfold fetchBins
  rw [hrange]

/-- Witness for the amended C1 at the concrete overlap store. -/
theorem fetchBins_range_wins_witness : fetchBins c1Store 0 300 0 = some 0 :=
  fetchBins_range_wins c1Store 0 300 0 1 0 (by decide) (by decide)

/-- Store holding exactly 100 raw samples. -/
def c5Store : Store :=
  ⟨(List.range 100).map (fun i => ((i : Int) * 300, 1)), [], defaultConfig, []⟩

/-- C5 (counterexample): at a raw sample count of exactly 100 the sampling
loop does **not** invoke compaction — the source guard is
`len(store.Bins) > 100`, strictly greater. -/
theorem mainLoop_threshold_counterexample :
    c5Store.bins.length = 100 ∧ mainLoopCompacts c5Store = false := by
  constructor
  · decide
  · decide

/-- C5 (amended): the sampling loop invokes compaction exactly when the raw
sample count exceeds 100 (that is, at 101 or more), and `compactBins` is a
no-op — the store is returned unchanged — whenever the count is below 50. -/
theorem compaction_thresholds :
    (∀ s : Store, mainLoopCompacts s = true ↔ 100 < s.bins.length) ∧
    (∀ s : Store, s.bins.length < 50 → compactBins s = s) := by
  constructor
  · intro s
    simp [mainLoopCompacts]
  · intro s h
    unfold compactBins
    rw [if_pos h]

/-- Witness for the amended C5: the compactor leaves a one-sample store as is. -/
theorem compaction_thresholds_witness :
    compactBins ⟨[(0, 1)], [], defaultConfig, []⟩ = ⟨[(0, 1)], [], defaultConfig, []⟩ :=
  compaction_thresholds.2 _ (by decide)

/-- C8 (confirmed): `formatPercentage` returns "0%" for a zero goal and
otherwise the floored integer percentage followed by " of " and the
human-formatted goal; in particular 240 of 480 formats as "50% of 8 hrs". -/
theorem formatPercentage_spec :
    (∀ workMins goalMins : Nat, formatPercentage workMins goalMins =
      if goalMins = 0 then "0%"
      else toString (workMins * 100 / goalMins) ++ "% of " ++ humanDuration goalMins) ∧
    formatPercentage 240 480 = "50% of 8 hrs" ∧
    formatPercentage 0 0 = "0%" := by
  refine ⟨?_, by decide, by decide⟩
  intro w g
  by_cases h : g = 0
  · subst h
    simp [formatPercentage]
  · have hz : ((g : Nat) : Int) ≠ 0 := by exact_mod_cast h
    have hcast : ((w : Int) * 100 / (g : Int)) = ((w * 100 / g : Nat) : Int) := by
      push_cast
      rfl
    rw [if_neg h]
    unfold formatPercentage
    rw [if_neg hz, hcast]
    rfl

/-- Day names accepted by `parseWorkDays`, in ordinal order 1..7. -/
def dayNames : List String := ["mon", "tue", "wed", "thu", "fri", "sat", "sun"]

/-- Day name of ordinal `i+1`. -/
def dayName (i : Fin 7) : String := dayNames.getD i ""

/-- C10 (confirmed): a reversed workday range "X-Y" with X's ordinal greater
than Y's parses to an empty day list with no error, and the `--config`
update is therefore accepted, leaving the configured workday set empty. -/
theorem parseWorkDays_reversed_range :
    (∀ i j : Fin 7, (j : Nat) < (i : Nat) →
        parseWorkDays (dayName i ++ "-" ++ dayName j) = some []) ∧
    (∀ s : Store, configCommand s "workdays" "fri-mon" =
        { s with config := { s.config with workDays := [] } }) :=
  ⟨by decide, fun s => rfl⟩

/-- Witness for C10 at the concrete input "fri-mon". -/
theorem parseWorkDays_reversed_range_witness : parseWorkDays "fri-mon" = some [] :=
  parseWorkDays_reversed_range.1 ⟨4, by decide⟩ ⟨0, by decide⟩ (by decide)

/-- Tokens of a workday configuration value, as compared against the day-name
table by `parseWorkDays`: range endpoints for a string containing "-",
trimmed comma-separated tokens otherwise, lowercased either way. -/
def workdayTokens (v : String) : List (List Char) :=
  if v.data.contains '-' then (splitOnChar '-' v.data).map lowerStr
  else (splitOnChar ',' v.data).map (fun p => lowerStr (trimSpace p))

theorem parseTimeToMinutes_none_of_parts {v : String}
    (h : (splitOnChar ':' v.data).length ≠ 2) : parseTimeToMinutes v = none := by
  cases hs : splitOnChar ':' v.data with
  | nil => unfold parseTimeToMinutes; rw [hs]
  | cons a tl =>
    cases tl with
    | nil => unfold parseTimeToMinutes; rw [hs]
    | cons b tl2 =>
      cases tl2 with
      | nil => exact absurd (by rw [hs]; rfl) h
      | cons c tl3 => unfold parseTimeToMinutes; rw [hs]

theorem parseDayTokens_none {parts : List (List Char)} {p : List Char}
    (hp : p ∈ parts) (hnone : dayLookup (lowerStr (trimSpace p)) = none) :
    parseDayTokens parts = none := by
  induction parts with
  | nil => cases hp
  | cons q rest ih =>
    rcases List.mem_cons.mp hp with rfl | hmem
    · unfold parseDayTokens
      rw [hnone]
    · unfold parseDayTokens
      cases hdl : dayLookup (lowerStr (trimSpace q)) with
      | none => rfl
      | some d => rw [ih hmem]; rfl

theorem parseWorkDays_none_of_invalid {v : String}
    (h : ∃ tk ∈ workdayTokens v, dayLookup tk = none) : parseWorkDays v = none := by
  obtain ⟨tk, htk, hnone⟩ := h
  by_cases hc : v.data.contains '-' = true
  · rw [workdayTokens, if_pos hc] at htk
    unfold parseWorkDays
    rw [if_pos hc]
    cases hs : splitOnChar '-' v.data with
    | nil => rfl
    | cons p0 tl =>
      cases tl with
      | nil =>
        rfl
      | cons p1 tl2 =>
        cases tl2 with
        | nil =>
          rw [hs] at htk
          simp only [List.map_cons, List.map_nil] at htk
          have hor : dayLookup (lowerStr p0) = none ∨ dayLookup (lowerStr p1) = none := by
            rcases List.mem_cons.mp htk with rfl | htk2
            · exact Or.inl hnone
            · rcases List.mem_cons.mp htk2 with rfl | htk3
              · exact Or.inr hnone
              · cases htk3
          show dayRangeOf p0 p1 = none
          unfold dayRangeOf
          cases h0 : dayLookup (lowerStr p0) with
          | none => rfl
          | some a =>
            cases h1 : dayLookup (lowerStr p1) with
            | none => rfl
            | some b =>
              rw [h0, h1] at hor
              rcases hor with h | h <;> cases h
        | cons p2 tl3 => rfl
  · rw [workdayTokens, if_neg hc] at htk
    unfold parseWorkDays
    rw [if_neg hc]
    obtain ⟨p, hpmem, hptk⟩ := List.mem_map.mp htk
    exact parseDayTokens_none hpmem (hptk ▸ hnone)

/-- C9 (confirmed): an invalid configuration value — a daily-goal string that
does not split on ":" into two integer parts, or a workday string with a
token naming no day — makes the parser fail, the process exits before
`saveStore`, and the previously persisted configuration remains in effect:
the store resulting from the `--config` command equals the saved one. -/
theorem configCommand_rejects (saved : Store) (v : String) :
    ((splitOnChar ':' v.data).length ≠ 2 → configCommand saved "dailygoal" v = saved) ∧
    (parseTimeToMinutes v = none → configCommand saved "dailygoal" v = saved) ∧
    ((∃ tk ∈ workdayTokens v, dayLookup tk = none) →
        configCommand saved "workdays" v = saved) ∧
    (parseWorkDays v = none → configCommand saved "workdays" v = saved) := by
  have hdg : parseTimeToMinutes v = none → configCommand saved "dailygoal" v = saved := by
    intro h
    unfold configCommand applyConfig
    rw [if_pos rfl, h]
    rfl
  have hwd : parseWorkDays v = none → configCommand saved "workdays" v = saved := by
    intro h
    unfold configCommand applyConfig
    rw [if_neg (by decide), if_pos rfl, h]
    rfl
  exact ⟨fun h => hdg (parseTimeToMinutes_none_of_parts h), hdg,
    fun h => hwd (parseWorkDays_none_of_invalid h), hwd⟩

/-- Witness for C9 at concrete invalid inputs: a malformed goal time and an
unknown day token leave the saved store untouched. -/
theorem configCommand_rejects_witness :
    configCommand ⟨[], [], defaultConfig, []⟩ "dailygoal" "8h" = ⟨[], [], defaultConfig, []⟩ ∧
    configCommand ⟨[], [], defaultConfig, []⟩ "workdays" "mon,funday"
      = ⟨[], [], defaultConfig, []⟩ :=
  ⟨(configCommand_rejects _ "8h").2.1 (by decide),
   (configCommand_rejects _ "mon,funday").2.2.2 (by decide)⟩

theorem mem_binGrid {qs qe t : Int} :
    t ∈ binGrid qs qe ↔ t % 300 = 0 ∧ floorToBin qs ≤ t ∧ t < floorToBin qe := by
  have h1 : floorToBin qs % 300 = 0 := by unfold floorToBin; omega
  have h2 : floorToBin qe % 300 = 0 := by unfold floorToBin; omega
  unfold binGrid
  rw [List.mem_map]
  constructor
  · rintro ⟨k, hk, hkt⟩
    rw [List.mem_range] at hk
    refine ⟨by omega, by omega, by omega⟩
  · rintro ⟨hmod, hle, hlt⟩
    refine ⟨((t - floorToBin qs) / 300).toNat, ?_, ?_⟩
    · rw [List.mem_range]
      omega
    · omega

theorem nodup_binGrid (qs qe : Int) : (binGrid qs qe).Nodup := by
  unfold binGrid
  refine List.Nodup.map ?_ (List.nodup_range _)
  intro a b hab
  simp only at hab
  omega

/-- C6 (confirmed): the resolver grid contains exactly one entry for every
bucket start (multiple of the bucket width) in `[floor(start), floor(end))`
— no gaps, no duplicates, for every store including the empty one — and any
bucket for which neither a raw sample nor a range supplies data resolves to
idle (0) by the default fill. -/
theorem binGrid_complete (s : Store) (qs qe t : Int) :
    (t ∈ binGrid qs qe ↔ t % 300 = 0 ∧ floorToBin qs ≤ t ∧ t < floorToBin qe) ∧
    (binGrid qs qe).Nodup ∧
    (fetchBins s qs qe t = none → resolvedStatus s qs qe t = 0) := by
  refine ⟨mem_binGrid, nodup_binGrid qs qe, ?_⟩
  intro h
  simp [resolvedStatus, h]

/-- Witness for C6: the empty store resolves an uncovered bucket to idle. -/
theorem binGrid_complete_witness : resolvedStatus ⟨[], [], defaultConfig, []⟩ 0 600 0 = 0 :=
  (binGrid_complete ⟨[], [], defaultConfig, []⟩ 0 600 0).2.2 (by decide)

/-- Length of the leading run of working (status 1) buckets. -/
def leadRun : List Int → Nat
  | [] => 0
  | c :: rest => if c = 1 then 1 + leadRun rest else 0

/-- Length of the longest unbroken run of working (status 1) buckets: the
maximum of the leading runs of all suffixes. -/
def maxRun : List Int → Nat
  | [] => 0
  | c :: rest => max (leadRun (c :: rest)) (maxRun rest)

/-- Switch count of a sequence relative to a previous status: one per element
that differs from its predecessor. -/
def switchesFrom : Int → List Int → Nat
  | _, [] => 0
  | prev, c :: rest => (if c ≠ prev then 1 else 0) + switchesFrom c rest

/-- Count of status changes between adjacent buckets of a sequence. -/
def countSwitches : List Int → Nat
  | a :: b :: rest => (if a ≠ b then 1 else 0) + countSwitches (b :: rest)
  | _ => 0

theorem leadRun_le_maxRun (l : List Int) : leadRun l ≤ maxRun l := by
  cases l with
  | nil => exact le_rfl
  | cons c rest =>
    show leadRun (c :: rest) ≤ max (leadRun (c :: rest)) (maxRun rest)
    exact le_max_left _ _

theorem focusGo_cons_one (rest : List Int) (L C : Nat) (prev : Int) (sw : Nat) :
    focusGo (1 :: rest) L C prev sw =
      focusGo rest (if L < C + 5 then C + 5 else L) (C + 5) 1
        (if (1 : Int) ≠ prev then sw + 1 else sw) := by
  simp [focusGo]

theorem focusGo_cons_ne {c : Int} (hc : c ≠ 1) (rest : List Int) (L C : Nat)
    (prev : Int) (sw : Nat) :
    focusGo (c :: rest) L C prev sw =
      focusGo rest L 0 c (if c ≠ prev then sw + 1 else sw) := by
  simp [focusGo, hc]

theorem focusGo_fst (l : List Int) : ∀ (L C : Nat) (prev : Int) (sw : Nat), C ≤ L →
    (focusGo l L C prev sw).1 = max L (max (C + 5 * leadRun l) (5 * maxRun l)) := by
  induction l with
  | nil =>
    intro L C prev sw h
    simp only [focusGo, leadRun, maxRun]
    omega
  | cons c rest ih =>
    intro L C prev sw h
    have hlr := leadRun_le_maxRun rest
    by_cases hc : c = 1
    · subst hc
      rw [focusGo_cons_one]
      by_cases hL : L < C + 5
      · rw [if_pos hL, ih _ _ _ _ le_rfl]
        simp only [leadRun, maxRun, eq_self_iff_true, if_true]
        omega
      · rw [if_neg hL, ih _ _ _ _ (by omega)]
        simp only [leadRun, maxRun, eq_self_iff_true, if_true]
        omega
    · rw [focusGo_cons_ne hc, ih _ _ _ _ (Nat.zero_le L)]
      simp only [leadRun, maxRun, if_neg hc]
      omega

theorem focusGo_snd (l : List Int) : ∀ (L C : Nat) (prev : Int) (sw : Nat),
    (focusGo l L C prev sw).2 = sw + switchesFrom prev l := by
  induction l with
  | nil =>
    intros
    simp [focusGo, switchesFrom]
  | cons c rest ih =>
    intro L C prev sw
    have hstep : (focusGo (c :: rest) L C prev sw).2 =
        (focusGo rest (if c = 1 ∧ L < (if c = 1 then C + 5 else 0) then
            (if c = 1 then C + 5 else 0) else L) (if c = 1 then C + 5 else 0) c
          (if c ≠ prev then sw + 1 else sw)).2 := rfl
    rw [hstep, ih]
    simp only [switchesFrom]
    by_cases hcp : c = prev
    · simp [hcp]
    · simp only [ne_eq, hcp, not_false_eq_true, if_true]
      omega

theorem countSwitches_eq (a : Int) (rest : List Int) :
    countSwitches (a :: rest) = switchesFrom a rest := by
  induction rest generalizing a with
  | nil => rfl
  | cons b rest ih =>
    simp only [countSwitches, switchesFrom, ih]
    by_cases hab : a = b
    · simp [hab]
    · simp [hab, Ne.symm hab]

/-- C7 (confirmed): on the concrete resolved day sequence idle, idle, working,
working, idle the focus statistics are `longestFocus` 10 minutes and
`contextSwitches` 2; in general the scan of `calculateFocusStats` returns
`5 *` (longest unbroken run of working buckets) and the count of status
changes between consecutive buckets (the first bucket, compared against
itself, contributes none). -/
theorem calculateFocusStats_spec :
    calculateFocusStats ⟨[(600, 1), (900, 1)], [], defaultConfig, []⟩ 0 1500 = (10, 2) ∧
    (∀ statuses : List Int,
      focusScan statuses = (5 * maxRun statuses, countSwitches statuses)) := by
  refine ⟨by decide, ?_⟩
  intro l
  cases l with
  | nil => rfl
  | cons s0 rest =>
    unfold focusScan
    rw [Prod.ext_iff]
    constructor
    · rw [focusGo_fst _ 0 0 s0 0 le_rfl]
      have := leadRun_le_maxRun (s0 :: rest)
      omega
    · rw [focusGo_snd, countSwitches_eq]
      simp [switchesFrom]

theorem takeRun_spec (bins : List (Int × Int)) (st : Int) :
    ∀ (prev : Int) (l : List Int), ∃ n : Nat,
      (takeRun bins st prev l).1 = prev + 300 * n ∧
      l = (List.range n).map (fun k : Nat => prev + 300 * ((k : Int) + 1))
            ++ (takeRun bins st prev l).2 ∧
      (∀ k : Nat, k < n → (bins.lookup (prev + 300 * ((k : Int) + 1))).getD 0 = st) ∧
      (∀ t', (takeRun bins st prev l).2.head? = some t' →
        ¬((bins.lookup t').getD 0 = st ∧ t' - (prev + 300 * n) = 300)) := by
  intro prev l
  induction l generalizing prev with
  | nil =>
    refine ⟨0, by simp [takeRun], by simp [takeRun], ?_, ?_⟩
    · intro k hk
      omega
    · intro t' ht'
      simp [takeRun] at ht'
  | cons t rest ih =>
    by_cases h : (bins.lookup t).getD 0 = st ∧ t - prev = 300
    · have hstep : takeRun bins st prev (t :: rest) = takeRun bins st t rest := by
        simp only [takeRun, if_pos h]
      obtain ⟨n, h1, h2, h3, h4⟩ := ih t
      have ht : t = prev + 300 := by omega
      refine ⟨n + 1, ?_, ?_, ?_, ?_⟩
      · rw [hstep, h1]
        push_cast
        omega
      · rw [hstep, List.range_succ_eq_map, List.map_cons, List.map_map]
        have hf0 : prev + 300 * (((0 : Nat) : Int) + 1) = t := by push_cast; omega
        rw [hf0]
        refine congrArg (t :: ·) ?_
        have hmap : (List.range n).map ((fun k : Nat => prev + 300 * ((k : Int) + 1)) ∘ Nat.succ)
            = (List.range n).map (fun k : Nat => t + 300 * ((k : Int) + 1)) := by
          refine List.map_congr_left ?_
          intro a _
          simp only [Function.comp]
          push_cast
          omega
        rw [hmap]
        exact h2
      · intro k hk
        cases k with
        | zero =>
          have : prev + 300 * (((0 : Nat) : Int) + 1) = t := by push_cast; omega
          rw [this]
          exact h.1
        | succ k' =>
          have hk' : k' < n := by omega
          have := h3 k' hk'
          have heq : prev + 300 * (((k' + 1 : Nat) : Int) + 1) = t + 300 * ((k' : Int) + 1) := by
            push_cast
            omega
          rw [heq]
          exact this
      · intro t' ht'
        rw [hstep] at ht'
        intro hcon
        exact h4 t' ht' ⟨hcon.1, by omega⟩
    · have hstep : takeRun bins st prev (t :: rest) = (prev, t :: rest) := by
        simp only [takeRun, if_neg h]
      refine ⟨0, by rw [hstep]; push_cast; omega, by rw [hstep]; simp, ?_, ?_⟩
      · intro k hk
        omega
      · intro t' ht'
        rw [hstep] at ht'
        simp only [List.head?] at ht'
        intro hcon
        have : t' = t := by
          injection ht' with hv
          exact hv.symm
        subst this
        exact h ⟨hcon.1, by omega⟩

/-- Buckets covered by a compaction-emitted range: its start plus whole bucket
steps below its end. -/
def runBuckets (r : Range) : List Int :=
  (List.range ((r.end_ - r.start) / 300).toNat).map
    (fun k : Nat => r.start + 300 * (k : Int))

theorem lookup_none_iff (bins : List (Int × Int)) (t : Int) :
    bins.lookup t = none ↔ t ∉ bins.map Prod.fst := by
  induction bins with
  | nil => simp [List.lookup]
  | cons p rest ih =>
    obtain ⟨k, v⟩ := p
    by_cases h : t = k
    · subst h
      simp [List.lookup]
    · have hbeq : (t == k) = false := by simp [h]
      simp [List.lookup, hbeq, ih, h]

theorem lookup_isSome_of_mem {bins : List (Int × Int)} {t : Int}
    (h : t ∈ bins.map Prod.fst) : ∃ v, bins.lookup t = some v := by
  cases hl : bins.lookup t with
  | none => exact absurd ((lookup_none_iff bins t).mp hl) (not_not_intro h)
  | some v => exact ⟨v, rfl⟩

theorem bind_cons_eq {α β : Type} (x : α) (xs : List α) (f : α → List β) :
    (x :: xs).bind f = f x ++ xs.bind f := rfl

theorem groupRuns_spec (bins : List (Int × Int)) :
    ∀ l : List Int,
      ((groupRuns bins l).bind runBuckets = l) ∧
      (∀ r ∈ groupRuns bins l, ∃ m : Nat, 1 ≤ m ∧ r.end_ = r.start + 300 * m) ∧
      (∀ r ∈ groupRuns bins l, ∀ t ∈ runBuckets r, (bins.lookup t).getD 0 = r.status) ∧
      List.Chain' (fun a b => ¬(b.start = a.end_ ∧ b.status = a.status)) (groupRuns bins l) := by
  suffices H : ∀ (N : Nat) (l : List Int), l.length ≤ N →
      ((groupRuns bins l).bind runBuckets = l) ∧
      (∀ r ∈ groupRuns bins l, ∃ m : Nat, 1 ≤ m ∧ r.end_ = r.start + 300 * m) ∧
      (∀ r ∈ groupRuns bins l, ∀ t ∈ runBuckets r, (bins.lookup t).getD 0 = r.status) ∧
      List.Chain' (fun a b => ¬(b.start = a.end_ ∧ b.status = a.status)) (groupRuns bins l) by
    exact fun l => H l.length l le_rfl
  intro N
  induction N with
  | zero =>
    intro l hl
    have hnil : l = [] := List.eq_nil_of_length_eq_zero (Nat.le_zero.mp hl)
    subst hnil
    exact ⟨rfl, by simp [groupRuns_nil], by simp [groupRuns_nil], by simp [groupRuns_nil]⟩
  | succ N ihN =>
    intro l hl
    cases l with
    | nil => exact ⟨rfl, by simp [groupRuns_nil], by simp [groupRuns_nil], by simp [groupRuns_nil]⟩
    | cons t rest =>
      have hlenrest : rest.length ≤ N := by
        simp only [List.length_cons] at hl
        omega
      have hrem := le_trans (takeRun_len bins ((bins.lookup t).getD 0) t rest) hlenrest
      obtain ⟨n, h1, h2, h3, h4⟩ := takeRun_spec bins ((bins.lookup t).getD 0) t rest
      obtain ⟨ih1, ih2, ih3, ih4⟩ := ihN _ hrem
      have hbuckets : runBuckets ⟨t, (takeRun bins ((bins.lookup t).getD 0) t rest).1 + 300,
          (bins.lookup t).getD 0, "", ""⟩
          = t :: (List.range n).map (fun k : Nat => t + 300 * ((k : Int) + 1)) := by
        unfold runBuckets
        dsimp only
        have hend : (((takeRun bins ((bins.lookup t).getD 0) t rest).1 + 300 - t) / 300).toNat
            = n + 1 := by
          rw [h1]
          omega
        rw [hend, List.range_succ_eq_map, List.map_cons, List.map_map]
        have hf0 : t + 300 * (((0 : Nat) : Int)) = t := by push_cast; ring
        rw [hf0]
        refine congrArg (t :: ·) ?_
        refine List.map_congr_left ?_
        intro a _
        simp only [Function.comp]
        push_cast
        ring
      refine ⟨?_, ?_, ?_, ?_⟩
      · rw [groupRuns_cons, bind_cons_eq, hbuckets, ih1, List.cons_append]
        exact congrArg (t :: ·) h2.symm
      · rw [groupRuns_cons]
        intro r hrmem
        rcases List.mem_cons.mp hrmem with rfl | hmem
        · refine ⟨n + 1, by omega, ?_⟩
          dsimp only
          rw [h1]
          push_cast
          ring
        · exact ih2 r hmem
      · rw [groupRuns_cons]
        intro r hrmem t' ht'
        rcases List.mem_cons.mp hrmem with rfl | hmem
        · rw [hbuckets] at ht'
          rcases List.mem_cons.mp ht' with rfl | hmem'
          · rfl
          · obtain ⟨k, hk, hkt⟩ := List.mem_map.mp hmem'
            rw [List.mem_range] at hk
            rw [← hkt]
            exact h3 k hk
        · exact ih3 r hmem t' ht'
      · rw [groupRuns_cons]
        refine List.Chain'.cons' ih4 ?_
        intro y hy
        cases hp2 : (takeRun bins ((bins.lookup t).getD 0) t rest).2 with
        | nil =>
          rw [hp2] at hy
          simp [groupRuns_nil] at hy
        | cons t2 tl2 =>
          rw [hp2, groupRuns_cons] at hy
          simp only [List.head?, Option.mem_def, Option.some.injEq] at hy
          intro hcon
          have hhead : (takeRun bins ((bins.lookup t).getD 0) t rest).2.head? = some t2 := by
            rw [hp2]
            rfl
          refine h4 t2 hhead ?_
          constructor
          · have : y.status = (bins.lookup t2).getD 0 := by rw [← hy]
            rw [← this, hcon.2]
          · have hystart : y.start = t2 := by rw [← hy]
            have : y.start = (takeRun bins ((bins.lookup t).getD 0) t rest).1 + 300 := by
              rw [hcon.1]
            rw [hystart] at this
            rw [this, h1]
            ring

/-- Sampled instants of a store, sorted ascending (compactBins lines 132-149;
the quadratic exchange sort of the source and insertion sort agree on lists of
integers, sorted permutations being unique). -/
def sortedTimes (s : Store) : List Int :=
  List.insertionSort (· ≤ ·) (s.bins.map Prod.fst)

/-- Ranges emitted by one compaction pass (compactBins lines 151-174). -/
def compactedRuns (s : Store) : List Range :=
  groupRuns s.bins (sortedTimes s)

theorem compactBins_eq (s : Store) (h50 : 50 ≤ s.bins.length) :
    compactBins s = { s with ranges := s.ranges ++ compactedRuns s, bins := [] } := by
  unfold compactBins
  rw [if_neg (by omega)]
  have hlen : (List.insertionSort (· ≤ ·) (s.bins.map Prod.fst)).length = s.bins.length := by
    rw [(List.perm_insertionSort _ _).length_eq, List.length_map]
  rw [if_neg ?hne]
  case hne =>
    intro habs
    have hnil : List.insertionSort (· ≤ ·) (s.bins.map Prod.fst) = [] :=
      List.isEmpty_iff.mp habs
    rw [hnil] at hlen
    simp at hlen
    omega
  rfl

theorem runBuckets_getLast {r : Range} {m : Nat} (hm1 : 1 ≤ m)
    (hm2 : r.end_ = r.start + 300 * m) :
    (runBuckets r).getLast? = some (r.end_ - 300) := by
  unfold runBuckets
  have hM : ((r.end_ - r.start) / 300).toNat = m := by omega
  rw [hM]
  obtain ⟨m', rfl⟩ : ∃ m', m = m' + 1 := ⟨m - 1, by omega⟩
  rw [List.range_succ, List.map_append, List.map_cons, List.map_nil,
    List.getLast?_concat]
  refine congrArg some ?_
  push_cast at hm2 ⊢
  omega

/-- C4 (confirmed): when compaction acts (at least 50 raw samples), it sorts
the sampled instants ascending and emits ranges whose decompressed buckets,
concatenated in order, are exactly the sorted instants (so every maximal
consecutive same-status run becomes one range and nothing is invented for
unsampled buckets); each range covers a whole number m >= 1 of buckets with
`end` exactly `start + 300*m` — hence a length-1 run emits a one-bucket-wide
range — and `end` is exactly one bucket width after the last covered instant;
each range carries the common status of all its sampled buckets, and no two
adjacent emitted ranges could have been merged (a gap or status change
separates them); afterwards the raw-sample map is empty. -/
theorem compactBins_spec (s : Store) (h50 : 50 ≤ s.bins.length) :
    (compactBins s).bins = [] ∧
    (compactBins s).ranges = s.ranges ++ compactedRuns s ∧
    (sortedTimes s).Sorted (· ≤ ·) ∧
    (sortedTimes s).Perm (s.bins.map Prod.fst) ∧
    ((compactedRuns s).bind runBuckets = sortedTimes s) ∧
    (∀ r ∈ compactedRuns s, ∃ m : Nat, 1 ≤ m ∧ r.end_ = r.start + 300 * m) ∧
    (∀ r ∈ compactedRuns s, (runBuckets r).getLast? = some (r.end_ - 300)) ∧
    (∀ r ∈ compactedRuns s, ∀ t ∈ runBuckets r, s.bins.lookup t = some r.status) ∧
    List.Chain' (fun a b => ¬(b.start = a.end_ ∧ b.status = a.status)) (compactedRuns s) := by
  obtain ⟨g1, g2, g3, g4⟩ := groupRuns_spec s.bins (sortedTimes s)
  refine ⟨by rw [compactBins_eq s h50], by rw [compactBins_eq s h50],
    List.sorted_insertionSort _ _, List.perm_insertionSort _ _, g1, g2, ?_, ?_, g4⟩
  · intro r hr
    obtain ⟨m, hm1, hm2⟩ := g2 r hr
    exact runBuckets_getLast hm1 hm2
  · intro r hr t ht
    have hst := g3 r hr t ht
    have htime : t ∈ sortedTimes s := by
      rw [← g1]
      exact List.mem_bind.mpr ⟨r, hr, ht⟩
    have hkey : t ∈ s.bins.map Prod.fst := (List.perm_insertionSort _ _).subset htime
    obtain ⟨v, hv⟩ := lookup_isSome_of_mem hkey
    rw [hv] at hst
    simp only [Option.getD_some] at hst
    rw [hv, hst]

/-- Store with 50 raw samples: a run of 25 working buckets, a gap, then a
run of 25 idle buckets. -/
def c4Store : Store :=
  ⟨(List.range 50).map (fun i =>
      (if i < 25 then (i : Int) * 300 else (i : Int) * 300 + 600,
        if i < 25 then 1 else 0)), [], defaultConfig, []⟩

/-- Witness for C4 at a concrete 50-sample store. -/
theorem compactBins_spec_witness :
    (compactBins c4Store).bins = [] ∧
    (compactBins c4Store).ranges = c4Store.ranges ++ compactedRuns c4Store :=
  ⟨(compactBins_spec c4Store (by decide)).1, (compactBins_spec c4Store (by decide)).2.1⟩

theorem rangeAssigns_window {qs qe t : Int} {r : Range}
    (h : rangeAssigns qs qe r t) : qs ≤ t ∧ t < qe :=
  ⟨h.2.2.2.2.2.2, h.2.2.2.2.2.1⟩

theorem rangeAssigns_iff_of_aligned {qs qe t : Int} {r : Range}
    (halign : r.start % 300 = 0) {m : Nat} (hm : r.end_ = r.start + 300 * m) :
    rangeAssigns qs qe r t ↔ (t ∈ runBuckets r ∧ qs ≤ t ∧ t < qe) := by
  have hfl : floorToBin r.start = r.start := by unfold floorToBin; omega
  unfold rangeAssigns
  rw [hfl]
  constructor
  · rintro ⟨ha1, ha2, ha3, ha4, ha5, ha6, ha7⟩
    refine ⟨?_, ha7, ha6⟩
    unfold runBuckets
    rw [List.mem_map]
    refine ⟨((t - r.start) / 300).toNat, ?_, ?_⟩
    · rw [List.mem_range]
      omega
    · omega
  · rintro ⟨hmem, hqs, hqe⟩
    unfold runBuckets at hmem
    rw [List.mem_map] at hmem
    obtain ⟨k, hk, hkt⟩ := hmem
    rw [List.mem_range] at hk
    refine ⟨by omega, by omega, by omega, by omega, by omega, hqe, hqs⟩

theorem rangesStatus_eq_none {qs qe t : Int} : ∀ (rs : List Range),
    (∀ r ∈ rs, ¬ rangeAssigns qs qe r t) → rangesStatus qs qe rs t = none := by
  intro rs
  induction rs with
  | nil => intro _; rfl
  | cons r rest ih =>
    intro h
    have hrest := ih (fun r2 hr2 => h r2 (List.mem_cons_of_mem _ hr2))
    simp only [rangesStatus]
    rw [hrest, if_neg (h r (List.mem_cons_self _ _))]

theorem rangesStatus_eq_some {qs qe t v : Int} : ∀ {rs : List Range},
    (∃ r ∈ rs, rangeAssigns qs qe r t) →
    (∀ r ∈ rs, rangeAssigns qs qe r t → r.status = v) →
    rangesStatus qs qe rs t = some v := by
  intro rs
  induction rs with
  | nil =>
    rintro ⟨r, hr, _⟩ _
    cases hr
  | cons r rest ih =>
    rintro ⟨r', hr', ha⟩ hall
    simp only [rangesStatus]
    by_cases hex : ∃ rr ∈ rest, rangeAssigns qs qe rr t
    · rw [ih hex (fun rr hrr harr => hall rr (List.mem_cons_of_mem _ hrr) harr)]
    · have hnone := rangesStatus_eq_none rest
        (fun rr hrr harr => hex ⟨rr, hrr, harr⟩)
      rw [hnone]
      rcases List.mem_cons.mp hr' with rfl | hmem
      · rw [if_pos ha, hall r' (List.mem_cons_self _ _) ha]
      · exact absurd ⟨r', hmem, ha⟩ hex

theorem fetchBins_of_empty_ranges {s : Store} (h : s.ranges = []) (qs qe t : Int) :
    fetchBins s qs qe t = rawStatus qs qe s.bins t := by
  unfold fetchBins
  rw [h]
  rfl

theorem fetchBins_of_empty_bins {s : Store} (h : s.bins = []) (qs qe t : Int) :
    fetchBins s qs qe t = rangesStatus qs qe s.ranges t := by
  unfold fetchBins
  cases hrs : rangesStatus qs qe s.ranges t with
  | none =>
    show rawStatus qs qe s.bins t = none
    rw [h]
    unfold rawStatus
    split <;> rfl
  | some v => rfl

theorem compactedRuns_aligned {s : Store}
    (hal : ∀ k ∈ s.bins.map Prod.fst, k % 300 = 0) :
    ∀ r ∈ compactedRuns s, r.start % 300 = 0 := by
  obtain ⟨g1, g2, _, _⟩ := groupRuns_spec s.bins (sortedTimes s)
  intro r hr
  obtain ⟨m, hm1, hm2⟩ := g2 r hr
  have hrstart : r.start ∈ sortedTimes s := by
    rw [← g1]
    refine List.mem_bind.mpr ⟨r, hr, ?_⟩
    unfold runBuckets
    rw [List.mem_map]
    refine ⟨0, ?_, by push_cast; ring⟩
    rw [List.mem_range]
    omega
  exact hal _ ((List.perm_insertionSort _ _).subset hrstart)

/-- Raw samples forming 50 consecutive working buckets. -/
def c2Bins : List (Int × Int) := (List.range 50).map (fun i => ((i : Int) * 300, 1))

/-- Store with 50 consecutive working raw samples plus one already-present
idle range over the very first bucket. -/
def c2Store : Store := ⟨c2Bins, [⟨0, 300, 0, "", ""⟩], defaultConfig, []⟩

/-- The same raw samples with no pre-existing ranges. -/
def c2StoreNR : Store := ⟨c2Bins, [], defaultConfig, []⟩

/-- C2 (counterexample): with a pre-existing range overlapping a raw bucket of
different status, resolving bucket 0 over the window [0, 300) yields the idle
range status before compaction but the raw working status after compaction —
compaction changes a resolved status, so it is not lossless in general. -/
theorem compactBins_not_lossless :
    fetchBins c2Store 0 300 0 = some 0 ∧
    fetchBins (compactBins c2Store) 0 300 0 = some 1 := by decide

/-- C2 (amended): compaction is lossless for status queries on stores with no
pre-existing ranges and bucket-aligned raw-sample keys (the sampler only
writes such stores until a range exists): for every window and bucket, the
resolved status before and after `compactBins` coincides. -/
theorem compactBins_lossless (s : Store) (hr : s.ranges = [])
    (hal : ∀ k ∈ s.bins.map Prod.fst, k % 300 = 0) :
    ∀ qs qe t, fetchBins (compactBins s) qs qe t = fetchBins s qs qe t := by
  intro qs qe t
  by_cases h50 : s.bins.length < 50
  · rw [show compactBins s = s from by unfold compactBins; rw [if_pos h50]]
  · have h50' : 50 ≤ s.bins.length := by omega
    obtain ⟨g1, g2, g3, g4⟩ := groupRuns_spec s.bins (sortedTimes s)
    rw [compactBins_eq s h50', fetchBins_of_empty_bins rfl,
      fetchBins_of_empty_ranges hr]
    show rangesStatus qs qe (s.ranges ++ compactedRuns s) t = rawStatus qs qe s.bins t
    rw [hr, List.nil_append]
    by_cases hw : qs ≤ t ∧ t < qe
    · by_cases hmem : t ∈ s.bins.map Prod.fst
      · obtain ⟨v, hv⟩ := lookup_isSome_of_mem hmem
        have htime : t ∈ sortedTimes s := (List.perm_insertionSort _ _).mem_iff.mpr hmem
        rw [← g1] at htime
        obtain ⟨r, hrmem, hrt⟩ := List.mem_bind.mp htime
        obtain ⟨m, hm1, hm2⟩ := g2 r hrmem
        have halign := compactedRuns_aligned hal r hrmem
        have hassign : rangeAssigns qs qe r t :=
          (rangeAssigns_iff_of_aligned halign hm2).mpr ⟨hrt, hw.1, hw.2⟩
        have hall : ∀ r' ∈ compactedRuns s, rangeAssigns qs qe r' t → r'.status = v := by
          intro r' hr' ha'
          obtain ⟨m', hm1', hm2'⟩ := g2 r' hr'
          have halign' := compactedRuns_aligned hal r' hr'
          have hrt' : t ∈ runBuckets r' :=
            ((rangeAssigns_iff_of_aligned halign' hm2').mp ha').1
          have hst := g3 r' hr' t hrt'
          rw [hv] at hst
          simp only [Option.getD_some] at hst
          exact hst.symm
        have hex : ∃ rr ∈ compactedRuns s, rangeAssigns qs qe rr t := ⟨r, hrmem, hassign⟩
        rw [rangesStatus_eq_some hex hall]
        unfold rawStatus
        rw [if_pos hw, hv]
      · have hnone : s.bins.lookup t = none := (lookup_none_iff _ _).mpr hmem
        have hranges : rangesStatus qs qe (compactedRuns s) t = none := by
          refine rangesStatus_eq_none _ ?_
          intro r hrmem ha
          obtain ⟨m, hm1, hm2⟩ := g2 r hrmem
          have halign := compactedRuns_aligned hal r hrmem
          have hrt : t ∈ runBuckets r :=
            ((rangeAssigns_iff_of_aligned halign hm2).mp ha).1
          have htime : t ∈ sortedTimes s := by
            rw [← g1]
            exact List.mem_bind.mpr ⟨r, hrmem, hrt⟩
          exact hmem ((List.perm_insertionSort _ _).subset htime)
        rw [hranges]
        unfold rawStatus
        rw [if_pos hw, hnone]
    · have hranges : rangesStatus qs qe (compactedRuns s) t = none :=
        rangesStatus_eq_none _ (fun r _ ha => hw (rangeAssigns_window ha))
      rw [hranges]
      unfold rawStatus
      rw [if_neg hw]

/-- Witness for the amended C2 on the concrete 50-sample store without
pre-existing ranges. -/
theorem compactBins_lossless_witness :
    fetchBins (compactBins c2StoreNR) 0 300 0 = fetchBins c2StoreNR 0 300 0 :=
  compactBins_lossless c2StoreNR rfl (by decide) 0 300 0

end TimeTrack
